import Mathlib

/-!
Verification of `trafilatura/hashing.py` (Simhash content fingerprinting,
bag-of-words hashing) and of the spec-level contract of the download queue
and decompression helpers.

Strings are modelled as lists of characters; bytes as lists of naturals
below 256; Python integers as `Int`, machine-free (Python ints are
unbounded).
-/

set_option maxRecDepth 10000

abbrev Str := List Char

/-! ## Python string primitives used by `hashing.py` -/

/-- Whitespace characters recognised by Python's `str.split()` (ASCII range). -/
def isPySpace (c : Char) : Bool :=
  c = ' ' || c = '\t' || c = '\n' || c = '\r' || c = Char.ofNat 11 || c = Char.ofNat 12

/-- `str.split()` with no argument: split on whitespace, dropping the empty
pieces produced by leading, trailing or repeated separators. -/
def splitWS (l : Str) : List Str :=
  (l.splitOnP isPySpace).filter (fun t => !t.isEmpty)

/-- The characters of Python's `string.punctuation`. -/
def pyPunctuation : Str :=
  ['!', '"', '#', '$', '%', '&', '\'', '(', ')', '*', '+', ',', '-', '.', '/',
   ':', ';', '<', '=', '>', '?', '@', '[', '\\', ']', '^', '_', Char.ofNat 96,
   Char.ofNat 123, '|', Char.ofNat 125, '~']

def isPyPunct (c : Char) : Bool := pyPunctuation.contains c

/-- `token.strip(string.punctuation)`: remove punctuation from both ends. -/
def stripPunct (l : Str) : Str :=
  ((l.dropWhile isPyPunct).reverse.dropWhile isPyPunct).reverse

/-- `str.isalnum()` (ASCII model): non-empty and every character
alphanumeric. -/
def pyIsAlnum (l : Str) : Bool := !l.isEmpty && l.all Char.isAlphanum

/-- `str.isdigit()` (ASCII model): non-empty and every character a decimal
digit. -/
def pyIsDigitStr (l : Str) : Bool := !l.isEmpty && l.all Char.isDigit

/-- ASCII lower-casing, as used by `str.lower()` on the inputs in scope. -/
def pyLowerChar (c : Char) : Char :=
  if 'A' ≤ c && c ≤ 'Z' then Char.ofNat (c.toNat + 32) else c

def pyLower (l : Str) : Str := l.map pyLowerChar

/-- Strip ASCII whitespace from both ends (`str.strip()`). -/
def pyStripSpace (l : Str) : Str :=
  ((l.dropWhile isPySpace).reverse.dropWhile isPySpace).reverse

/-! ## Bytes, UTF-8 encoding, and the BLAKE2b hash (`hashlib.blake2b`) -/

/-- UTF-8 encoding of a single character (`str.encode()`). -/
def utf8Char (c : Char) : List Nat :=
  let n := c.toNat
  if n < 128 then [n]
  else if n < 2048 then [192 + n / 64, 128 + n % 64]
  else if n < 65536 then [224 + n / 4096, 128 + n / 64 % 64, 128 + n % 64]
  else [240 + n / 262144, 128 + n / 4096 % 64, 128 + n / 64 % 64, 128 + n % 64]

/-- UTF-8 encoding of a string (`str.encode()`). -/
def utf8Encode (l : Str) : List Nat := l.flatMap utf8Char

/-- `int.from_bytes(b, "big")`. -/
def intFromBytesBE (bs : List Nat) : Nat := bs.foldl (fun a b => 256 * a + b) 0

/-- 2^64, the word modulus of BLAKE2b. -/
def M64 : Nat := 18446744073709551616

/-- Rotate a 64-bit word right by `r` bits. -/
def rotr64 (r x : Nat) : Nat := ((x >>> r) ||| (x <<< (64 - r))) % M64

/-- BLAKE2b initialisation vector (RFC 7693). -/
def blakeIV : List Nat :=
  [0x6a09e667f3bcc908, 0xbb67ae8584caa73b, 0x3c6ef372fe94f82b, 0xa54ff53a5f1d36f1,
   0x510e527fade682d1, 0x9b05688c2b3e6c1f, 0x1f83d9abfb41bd6b, 0x5be0cd19137e2179]

/-- BLAKE2 message schedule permutations (RFC 7693). -/
def blakeSigma : List (List Nat) :=
  [[0, 1, 2, 3, 4, 5, 6, 7, 8, 9, 10, 11, 12, 13, 14, 15],
   [14, 10, 4, 8, 9, 15, 13, 6, 1, 12, 0, 2, 11, 7, 5, 3],
   [11, 8, 12, 0, 5, 2, 15, 13, 10, 14, 3, 6, 7, 1, 9, 4],
   [7, 9, 3, 1, 13, 12, 11, 14, 2, 6, 5, 10, 4, 0, 15, 8],
   [9, 0, 5, 7, 2, 4, 10, 15, 14, 1, 11, 12, 6, 8, 3, 13],
   [2, 12, 6, 10, 0, 11, 8, 3, 4, 13, 7, 5, 15, 14, 1, 9],
   [12, 5, 1, 15, 14, 13, 4, 10, 0, 7, 6, 3, 9, 2, 8, 11],
   [13, 11, 7, 14, 12, 1, 3, 9, 5, 0, 15, 4, 8, 6, 2, 10],
   [6, 15, 14, 9, 11, 3, 0, 8, 12, 2, 13, 7, 1, 4, 10, 5],
   [10, 2, 8, 4, 7, 6, 1, 5, 15, 11, 9, 14, 3, 12, 13, 0]]

/-- The BLAKE2b mixing function G acting on the work vector. -/
def blakeG (v : List Nat) (a b c d x y : Nat) : List Nat :=
  let va := (v.getD a 0 + v.getD b 0 + x) % M64
  let vd := rotr64 32 (Nat.xor (v.getD d 0) va)
  let vc := (v.getD c 0 + vd) % M64
  let vb := rotr64 24 (Nat.xor (v.getD b 0) vc)
  let va := (va + vb + y) % M64
  let vd := rotr64 16 (Nat.xor vd va)
  let vc := (vc + vd) % M64
  let vb := rotr64 63 (Nat.xor vb vc)
  (((v.set a va).set b vb).set c vc).set d vd

/-- One round of the BLAKE2b compression function. -/
def blakeRound (m : List Nat) (v : List Nat) (r : Nat) : List Nat :=
  let s := blakeSigma.getD (r % 10) []
  let mi := fun j => m.getD (s.getD j 0) 0
  let v := blakeG v 0 4 8 12 (mi 0) (mi 1)
  let v := blakeG v 1 5 9 13 (mi 2) (mi 3)
  let v := blakeG v 2 6 10 14 (mi 4) (mi 5)
  let v := blakeG v 3 7 11 15 (mi 6) (mi 7)
  let v := blakeG v 0 5 10 15 (mi 8) (mi 9)
  let v := blakeG v 1 6 11 12 (mi 10) (mi 11)
  let v := blakeG v 2 7 8 13 (mi 12) (mi 13)
  let v := blakeG v 3 4 9 14 (mi 14) (mi 15)
  v

/-- Little-endian 64-bit word from 8 bytes. -/
def wordLE (bs : List Nat) : Nat :=
  ((List.range 8).map (fun j => bs.getD j 0 <<< (8 * j))).sum

/-- The BLAKE2b compression function F (RFC 7693): `h` the 8-word state,
`block` a 128-byte block, `t` the byte counter, `last` the final-block flag. -/
def blakeCompress (h : List Nat) (block : List Nat) (t : Nat) (last : Bool) : List Nat :=
  let m := (List.range 16).map (fun i => wordLE (block.drop (8 * i)))
  let v := h ++ blakeIV
  let v := v.set 12 (Nat.xor (v.getD 12 0) (t % M64))
  let v := v.set 13 (Nat.xor (v.getD 13 0) (t / M64 % M64))
  let v := if last then v.set 14 (Nat.xor (v.getD 14 0) (M64 - 1)) else v
  let v := (List.range 12).foldl (blakeRound m) v
  (List.range 8).map (fun i => Nat.xor (h.getD i 0) (Nat.xor (v.getD i 0) (v.getD (i + 8) 0)))

/-- Split a non-empty byte string into blocks of at most 128 bytes. -/
def toBlocks (l : List Nat) : List (List Nat) :=
  if l = [] then [] else l.take 128 :: toBlocks (l.drop 128)
termination_by l.length
decreasing_by
  rename_i h
  have : l.length ≠ 0 := fun hl => h (List.eq_nil_of_length_eq_zero hl)
  simp only [List.length_drop]; omega

/-- Zero-pad a block to 128 bytes. -/
def padBlock (b : List Nat) : List Nat := b ++ List.replicate (128 - b.length) 0

/-- Process the message blocks, threading the byte counter. -/
def blakeLoop (h : List Nat) (processed total : Nat) : List (List Nat) → List Nat
  | [] => h
  | [b] => blakeCompress h (padBlock b) total true
  | b :: b' :: rest =>
    blakeLoop (blakeCompress h b (processed + 128) false) (processed + 128) total (b' :: rest)

/-- The 8 little-endian bytes of a 64-bit word. -/
def bytesLE8 (w : Nat) : List Nat := (List.range 8).map (fun j => w >>> (8 * j) % 256)

/-- `hashlib.blake2b(data, digest_size=nn).digest()`: unkeyed BLAKE2b with an
`nn`-byte digest. -/
def blake2b (data : List Nat) (nn : Nat) : List Nat :=
  let h0 := blakeIV.set 0 (Nat.xor (blakeIV.getD 0 0) (0x01010000 ||| nn))
  let hF := if data = [] then blakeCompress h0 (List.replicate 128 0) 0 true
            else blakeLoop h0 0 data.length (toBlocks data)
  ((List.range 8).map (fun i => bytesLE8 (hF.getD i 0))).flatten.take nn

/-! ## `Simhash` (`trafilatura/hashing.py`) -/

/-- The token list built by the first loop of `Simhash._sample_tokens`:
whitespace-split tokens, stripped of punctuation, kept when alphanumeric. -/
def tokens0 (inputstring : Str) : List Str :=
  ((splitWS inputstring).map stripPunct).filter pyIsAlnum

/-- The `for i in range(4, -1, -1)` loop of `Simhash._sample_tokens`:
`sample` is the previously computed sample (initially `[]`), returned when
the thresholds are exhausted.  `len(sample) >= length / 2` is expressed
integrally as `length ≤ 2 * sample.length`. -/
def sampleGo (length : Nat) (tokens : List Str) (sample : List Str) : List Nat → List Str
  | [] => sample
  | i :: rest =>
    let sample := tokens.filter (fun t => i < t.length)
    if length ≤ 2 * sample.length then sample else sampleGo length tokens sample rest

/-- `Simhash._sample_tokens`. -/
def sampleTokens (length : Nat) (inputstring : Str) : List Str :=
  sampleGo length (tokens0 inputstring) [] [4, 3, 2, 1, 0]

/-- `Simhash._hash`: 8-byte BLAKE2b digest of the encoded string, read
big-endian as an unsigned integer. -/
def simhashHash (s : Str) : Nat := intFromBytesBE (blake2b (utf8Encode s) 8)

/-- `Simhash._vector_to_add` (the `lru_cache` is a pure-performance detail). -/
def vectorToAdd (length : Nat) (token : Str) : List Int :=
  (List.range length).map (fun i => if simhashHash token &&& (1 <<< i) ≠ 0 then 1 else -1)

/-- `Simhash.create_hash`. -/
def createHash (length : Nat) (inputstring : Str) : Nat :=
  let vector := (sampleTokens length inputstring).foldl
    (fun v token => List.zipWith (· + ·) v (vectorToAdd length token))
    (List.replicate length (0 : Int))
  (((List.range length).filter (fun i => 0 ≤ vector.getD i 0)).map (fun i => 1 <<< i)).sum

/-! ### Decimal and hexadecimal conversions (`hex`, `str`, `int(..., 16)`) -/

/-- One lowercase hexadecimal digit. -/
def hexChar : Nat → Char
  | 0 => '0' | 1 => '1' | 2 => '2' | 3 => '3' | 4 => '4'
  | 5 => '5' | 6 => '6' | 7 => '7' | 8 => '8' | 9 => '9'
  | 10 => 'a' | 11 => 'b' | 12 => 'c' | 13 => 'd' | 14 => 'e'
  | _ => 'f'

/-- Digits of `hex(n)`, driven by a fuel argument so that the definition is
structurally recursive (`natToHex` supplies enough fuel). -/
def natToHexAux : Nat → Nat → Str
  | 0, _ => []
  | fuel + 1, n => if n < 16 then [hexChar n] else natToHexAux fuel (n / 16) ++ [hexChar (n % 16)]

/-- Digits of `hex(n)` for a natural number `n` (no `0x`, lowercase). -/
def natToHex (n : Nat) : Str := natToHexAux (n + 1) n

/-- `hex(i)` on a Python integer: `0x` form, `-0x` when negative. -/
def pyHexRepr (i : Int) : Str :=
  if i < 0 then '-' :: '0' :: 'x' :: natToHex (-i).toNat
  else '0' :: 'x' :: natToHex i.toNat

/-- One decimal digit. -/
def decChar : Nat → Char
  | 0 => '0' | 1 => '1' | 2 => '2' | 3 => '3' | 4 => '4'
  | 5 => '5' | 6 => '6' | 7 => '7' | 8 => '8' | _ => '9'

/-- Decimal digits, driven by a fuel argument so that the definition is
structurally recursive (`natToDec` supplies enough fuel). -/
def natToDecAux : Nat → Nat → Str
  | 0, _ => []
  | fuel + 1, n => if n < 10 then [decChar n] else natToDecAux fuel (n / 10) ++ [decChar (n % 10)]

/-- Decimal digits of a natural number. -/
def natToDec (n : Nat) : Str := natToDecAux (n + 1) n

/-- `str(i)` on a Python integer. -/
def pyStrOfInt (i : Int) : Str :=
  if i < 0 then '-' :: natToDec (-i).toNat else natToDec i.toNat

/-- Value of one hexadecimal digit character, if any. -/
def hexVal (c : Char) : Option Nat :=
  if '0' ≤ c && c ≤ '9' then some (c.toNat - 48)
  else if 'a' ≤ c && c ≤ 'f' then some (c.toNat - 87)
  else if 'A' ≤ c && c ≤ 'F' then some (c.toNat - 55)
  else none

/-- Hexadecimal digits after the first one, as accepted by Python's
`int(s, 16)`: single underscores may separate digits. -/
def hexDigitsVal (acc : Nat) (l : Str) : Option Nat :=
  match l with
  | [] => some acc
  | c :: cs =>
    if c = '_' then
      match cs with
      | [] => none
      | c' :: cs' =>
        if c' = '_' then none
        else match hexVal c' with
          | some d => hexDigitsVal (16 * acc + d) cs'
          | none => none
    else match hexVal c with
      | some d => hexDigitsVal (16 * acc + d) cs
      | none => none

/-- Value of a decimal digit string (`int(s)` on an all-digit string). -/
def decDigitsVal (l : Str) : Nat := l.foldl (fun a c => 10 * a + (c.toNat - 48)) 0

/-- The digit part of `int(s, 16)`: at least one hexadecimal digit, then
possibly underscore-separated digits. -/
def parseHexStart (l : Str) : Option Nat :=
  match l with
  | [] => none
  | c :: cs =>
    match hexVal c with
    | some d => hexDigitsVal d cs
    | none => none

/-- Strip an optional `0x`/`0X` marker, together with one underscore that
Python permits right after it. -/
def dropHexMark (l : Str) : Str :=
  match l with
  | '0' :: c :: rest =>
    if c = 'x' || c = 'X' then
      match rest with
      | '_' :: rest' => rest'
      | _ => rest
    else l
  | _ => l

/-- Body of `int(s, 16)` after sign handling. -/
def parseHexBody (l : Str) : Option Nat := parseHexStart (dropHexMark l)

/-- Python's `int(s, 16)`: optional surrounding whitespace, optional sign,
optional `0x` marker, then hexadecimal digits; `none` models `ValueError`. -/
def parseHexPy (s : Str) : Option Int :=
  match pyStripSpace s with
  | [] => none
  | c :: rest =>
    if c = '+' then (parseHexBody rest).map Int.ofNat
    else if c = '-' then (parseHexBody rest).map (fun n => -(n : Int))
    else (parseHexBody (c :: rest)).map Int.ofNat

/-! ### `validate` and the `Simhash` constructor -/

/-- A Python value passed as `existing_hash`: an `int`, a `str`, `None`, or
any value of another type. -/
inductive PyVal where
  | int (i : Int)
  | str (s : Str)
  | pynone
  | other
deriving DecidableEq

/-- `Simhash._hash_to_int`: `int(inputhash, 16)`, with `TypeError` and
`ValueError` both mapped to `None`. -/
def hashToInt (inputhash : Str) : Option Int := parseHexPy inputhash

/-- `Simhash.validate`. -/
def validate (inputhash : PyVal) : Option Int :=
  match inputhash with
  | .int i => if (pyStrOfInt i).length = 16 then some i else none
  | .str s =>
    if pyIsDigitStr s ∧ 18 ≤ s.length ∧ s.length ≤ 22 then some (decDigitsVal s)
    else hashToInt s
  | _ => none

structure Simhash where
  length : Nat
  hash : Int

/-- The `Simhash` constructor: `self.hash = self.validate(existing_hash) or
self.create_hash(inputstring)` — a validated value of `0` is falsy and is
replaced by the computed hash. -/
def mkSimhash (inputstring : Str) (length : Nat := 64) (existing : PyVal := .pynone) :
    Simhash :=
  { length := length
    hash :=
      match validate existing with
      | some v => if v = 0 then (createHash length inputstring : Int) else v
      | none => (createHash length inputstring : Int) }

/-- `Simhash.to_hex`: `hex(self.hash)[2:]`. -/
def toHex (h : Simhash) : Str := (pyHexRepr h.hash).drop 2

/-- Number of set bits, as `bin(x).count("1")` computes it for `x ≥ 0`. -/
def popcount (n : Nat) : Nat :=
  if n = 0 then 0 else n % 2 + popcount (n / 2)
termination_by n
decreasing_by omega

/-- Python's `^` on arbitrary (two's-complement) integers. -/
def pyIntXor (a b : Int) : Int :=
  if 0 ≤ a then
    if 0 ≤ b then Int.ofNat (Nat.xor a.toNat b.toNat)
    else Int.negSucc (Nat.xor a.toNat (-(b + 1)).toNat)
  else
    if 0 ≤ b then Int.negSucc (Nat.xor (-(a + 1)).toNat b.toNat)
    else Int.ofNat (Nat.xor (-(a + 1)).toNat (-(b + 1)).toNat)

/-- `Simhash.hamming_distance`: `bin(self.hash ^ other_hash.hash).count("1")`
(for a negative integer, `bin` renders a sign and the magnitude's digits). -/
def hammingDistance (a b : Simhash) : Nat := popcount (pyIntXor a.hash b.hash).natAbs

/-- `Simhash.similarity`: `(self.length - self.hamming_distance(other)) /
self.length`, modelled over `ℚ`. -/
def similarity (a b : Simhash) : ℚ :=
  ((a.length : ℚ) - (hammingDistance a b : ℚ)) / (a.length : ℚ)

/-! ## Bag-of-words hashing (`generate_bow_hash`, `generate_hash_filename`) -/

/-- A character matched by the class `[\w-]` (ASCII model of `re`'s `\w`). -/
def isWordHyphen (c : Char) : Bool := c.isAlphanum || c = '_' || c = '-'

/-- Close the current run of `[\w-]` characters (held reversed in `cur`),
keeping it only when its length is at least 3. -/
def closeRun (cur : Str) : List Str :=
  if 3 ≤ cur.length then [cur.reverse] else []

/-- Worker for `findWords`: scans the text, accumulating the current
maximal run of `[\w-]` characters in reverse. -/
def findWordsAux (cur : Str) : Str → List Str
  | [] => closeRun cur
  | c :: cs =>
    if isWordHyphen c then findWordsAux (c :: cur) cs
    else closeRun cur ++ findWordsAux [] cs

/-- `re.findall(r"[\w-]{3,}", s)`: the maximal runs of `[\w-]` characters of
length at least 3, left to right. -/
def findWords (l : Str) : List Str := findWordsAux [] l

/-- `" ".join(words)`. -/
def joinSpace (ws : List Str) : Str := List.intercalate [' '] ws

/-- `generate_bow_hash`. -/
def generateBowHash (s : Str) (length : Nat := 24) : List Nat :=
  let words := findWords (pyLower s)
  let teststring := pyStripSpace (joinSpace words)
  blake2b (utf8Encode teststring) length

/-- The URL-safe base64 alphabet, in order. -/
def b64Alphabet : Str :=
  ((List.range 26).map (fun i => Char.ofNat (65 + i))) ++
  ((List.range 26).map (fun i => Char.ofNat (97 + i))) ++
  ((List.range 10).map (fun i => Char.ofNat (48 + i))) ++ ['-', '_']

def b64Char (n : Nat) : Char := b64Alphabet.getD n 'A'

/-- `base64.urlsafe_b64encode` on a byte string. -/
def b64urlEncode : List Nat → Str
  | [] => []
  | [a] => [b64Char (a / 4), b64Char (a % 4 * 16), '=', '=']
  | [a, b] => [b64Char (a / 4), b64Char (a % 4 * 16 + b / 16), b64Char (b % 16 * 4), '=']
  | a :: b :: c :: rest =>
    b64Char (a / 4) :: b64Char (a % 4 * 16 + b / 16) ::
      b64Char (b % 16 * 4 + c / 64) :: b64Char (c % 64) :: b64urlEncode rest

/-- `generate_hash_filename`. -/
def generateHashFilename (content : Str) : Str :=
  b64urlEncode (generateBowHash content 12)

/-- `content_fingerprint`. -/
def contentFingerprint (content : Str) : Str := toHex (mkSimhash content)

/-! ## URL store and download buffer (spec §4.5, §3; exercised by
`tests/downloads_tests.py::test_queue`) -/

/-- Modelled from the spec: origin extraction (Glossary "Origin": the
scheme+host component of a URL); the code of `courlan.UrlStore` and
`add_to_compressed_dict` is not under `src/`. -/
def findSchemeSep : Str → Option (Str × Str)
  | [] => none
  | ':' :: '/' :: '/' :: rest => some ([], rest)
  | c :: cs => (findSchemeSep cs).map (fun p => (c :: p.1, p.2))

/-- Modelled from the spec: the origin of a URL, `none` for scheme-less or
host-less entries, which §4.5 says are dropped silently. -/
def urlOrigin (url : Str) : Option Str :=
  match findSchemeSep url with
  | none => none
  | some (scheme, rest) =>
    let host := rest.takeWhile (fun c => c ≠ '/')
    if scheme = [] ∨ host = [] then none
    else some (scheme ++ [':', '/', '/'] ++ host)

/-- Modelled from the spec (§3 "URL Store"): origin buckets, each an ordered
list of pending URLs plus a last-access timestamp (`none` when unset);
`add_to_compressed_dict` and `load_download_buffer` are not under `src/`. -/
structure UrlStoreM where
  buckets : List (Str × List Str × Option ℚ)
deriving DecidableEq

/-- Modelled from the spec: insert one URL into its origin bucket,
deduplicating and preserving insertion order. -/
def addUrl (store : List (Str × List Str × Option ℚ)) (origin url : Str) :
    List (Str × List Str × Option ℚ) :=
  match store with
  | [] => [(origin, [url], none)]
  | (o, us, t) :: rest =>
    if o = origin then
      (if url ∈ us then (o, us, t) :: rest else (o, us ++ [url], t) :: rest)
    else (o, us, t) :: addUrl rest origin url

/-- Modelled from the spec (§4.5 `add_to_store`): normalise, silently drop
scheme-less entries, deduplicate, partition by origin. -/
def addToStore (urls : List Str) : UrlStoreM :=
  ⟨urls.foldl (fun acc u =>
      match urlOrigin u with
      | none => acc
      | some o => addUrl acc o u) []⟩

/-- Modelled from the spec (§4.5 `load_buffer`): an origin is eligible when
its last-access timestamp is unset or at least `sleepTime` in the past. -/
def takeBucket (sleepTime now : ℚ) (b : Str × List Str × Option ℚ) :
    Option Str × (Str × List Str × Option ℚ) :=
  match b with
  | (o, [], t) => (none, (o, [], t))
  | (o, u :: us, t) =>
    let eligible := match t with
      | none => true
      | some t0 => decide (t0 + sleepTime ≤ now)
    if eligible then (some u, (o, us, some now)) else (none, (o, u :: us, t))

/-- Modelled from the spec (§4.5 `load_buffer` / §3 "Download Buffer"): at
most one pending URL per eligible origin, with the selected origins'
timestamps set to `now`. -/
def loadDownloadBuffer (store : UrlStoreM) (sleepTime now : ℚ) :
    List Str × UrlStoreM :=
  let results := store.buckets.map (takeBucket sleepTime now)
  (results.filterMap Prod.fst, ⟨results.map Prod.snd⟩)

/-! ## Decompression (`handle_compressed_file`; spec §4.4, §6, exercised by
`tests/downloads_tests.py::test_decode`) -/

/-- Modelled from the spec (§6 decode utility): `handle_compressed_file`
tries each available decompressor and falls back to the original bytes when
none of them accepts the input (the code of `trafilatura/utils.py` is not
under `src/`). -/
def handleCompressedFile (decoders : List (List Nat → Option (List Nat)))
    (data : List Nat) : List Nat :=
  match decoders with
  | [] => data
  | d :: rest =>
    match d data with
    | some out => out
    | none => handleCompressedFile rest data

/-- Modelled from the spec: the gzip decompressor rejects corrupt or
truncated streams.  DEFLATE itself is external; the model requires the
2-byte magic, the deflate method byte, and at least the 10-byte header and
8-byte trailer of a complete frame, failing (`none`) otherwise. -/
def gzipDecompressM (data : List Nat) : Option (List Nat) :=
  if data.take 3 = [0x1f, 0x8b, 0x08] ∧ 18 ≤ data.length
  then some (data.drop 10) else none

/-- Modelled from the spec: the zstd decompressor rejects corrupt or
truncated streams; the model requires the 4-byte magic and at least a
complete frame header, failing (`none`) otherwise. -/
def zstdDecompressM (data : List Nat) : Option (List Nat) :=
  if data.take 4 = [0x28, 0xb5, 0x2f, 0xfd] ∧ 9 ≤ data.length
  then some (data.drop 6) else none

/-! ## Helper lemmas: sums of distinct powers of two -/

/-- The value `sum(1 << i for i in range(n) if p(i))`. -/
def bitSum (p : Nat → Bool) (n : Nat) : Nat :=
  (((List.range n).filter p).map (fun i => 1 <<< i)).sum

theorem bitSum_succ (p : Nat → Bool) (n : Nat) :
    bitSum p (n + 1) = bitSum p n + (if p n then 2 ^ n else 0) := by
  simp only [bitSum, List.range_succ, List.filter_append, List.map_append, List.sum_append]
  by_cases h : p n <;> simp [h, Nat.one_shiftLeft]

theorem bitSum_lt (p : Nat → Bool) (n : Nat) : bitSum p n < 2 ^ n := by
  induction n with
  | zero => simp [bitSum]
  | succ n ih =>
    rw [bitSum_succ, pow_succ]
    by_cases h : p n <;> simp [h] <;> omega

theorem testBit_add_two_pow_lt {a n i : Nat} (ha : a < 2 ^ n) (hi : i < n) :
    (a + 2 ^ n).testBit i = a.testBit i := by
  rw [Nat.testBit_to_div_mod, Nat.testBit_to_div_mod]
  have hsplit : 2 ^ n = 2 ^ i * 2 ^ (n - i) := by
    rw [← pow_add]; congr 1; omega
  have h2 : (a + 2 ^ n) / 2 ^ i = a / 2 ^ i + 2 ^ (n - i) := by
    rw [hsplit, Nat.add_mul_div_left _ _ (Nat.pos_pow_of_pos i (by norm_num))]
  rw [h2]
  have h3 : 2 ^ (n - i) = 2 ^ (n - i - 1) * 2 := by
    rw [← pow_succ]; congr 1; omega
  have h4 : (a / 2 ^ i + 2 ^ (n - i)) % 2 = a / 2 ^ i % 2 := by
    rw [h3]; omega
  simp only [h2, h4]

theorem testBit_add_two_pow_self {a n : Nat} (ha : a < 2 ^ n) :
    (a + 2 ^ n).testBit n = true := by
  rw [Nat.testBit_to_div_mod]
  have h2 : (a + 2 ^ n) / 2 ^ n = a / 2 ^ n + 1 := by
    have := Nat.add_mul_div_left a 1 (Nat.pos_pow_of_pos n (show 0 < 2 by norm_num))
    simpa using this
  rw [h2, Nat.div_eq_of_lt ha]
  simp

theorem testBit_bitSum (p : Nat → Bool) (n : Nat) (i : Nat) :
    (bitSum p n).testBit i = (p i && decide (i < n)) := by
  induction n with
  | zero => simp [bitSum]
  | succ n ih =>
    rw [bitSum_succ]
    cases hpn : p n with
    | true =>
      simp only [hpn, if_true]
      rcases Nat.lt_trichotomy i n with hi | hi | hi
      · rw [testBit_add_two_pow_lt (bitSum_lt p n) hi, ih]
        simp [hi, Nat.lt_succ_of_lt hi]
      · subst hi
        rw [testBit_add_two_pow_self (bitSum_lt p _)]
        simp [hpn]
      · have hlt : bitSum p n + 2 ^ n < 2 ^ i := by
          have h1 : 2 ^ (n + 1) ≤ 2 ^ i := Nat.pow_le_pow_right (by norm_num) hi
          have h2 := bitSum_lt p n
          rw [pow_succ] at h1; omega
        rw [Nat.testBit_lt_two_pow hlt]
        have : ¬ i < n + 1 := by omega
        simp [this]
    | false =>
      rw [if_neg (by simp [hpn]), Nat.add_zero, ih]
      rcases Nat.lt_trichotomy i n with hi | hi | hi
      · simp [hi, Nat.lt_succ_of_lt hi]
      · subst hi; simp [hpn]
      · have h1 : ¬ i < n := by omega
        have h2 : ¬ i < n + 1 := by omega
        simp [h1, h2]

/-! ## Helper lemmas: the aggregate vector of `create_hash` -/

/-- Claim-side description (C3): the component-wise aggregate at bit
position `i` — one `+1`/`-1` contribution per sampled token, `+1` exactly
when bit `i` of the token's 8-byte digest is set. -/
def simhashAggregate (length : Nat) (s : Str) (i : Nat) : Int :=
  ((sampleTokens length s).map
    (fun t => if (simhashHash t).testBit i then (1 : Int) else -1)).sum

theorem zipWith_add_getD (v w : List Int) (i : Nat)
    (hv : i < v.length) (hw : i < w.length) :
    (List.zipWith (· + ·) v w).getD i 0 = v.getD i 0 + w.getD i 0 := by
  induction v generalizing w i with
  | nil => simp at hv
  | cons a v ih =>
    cases w with
    | nil => simp at hw
    | cons b w =>
      cases i with
      | zero => simp
      | succ i =>
        simp only [List.zipWith_cons_cons, List.getD_cons_succ]
        exact ih w i (by simpa using hv) (by simpa using hw)

theorem vectorToAdd_length (length : Nat) (t : Str) :
    (vectorToAdd length t).length = length := by
  simp [vectorToAdd]

theorem vectorToAdd_getD (length : Nat) (t : Str) (i : Nat) (hi : i < length) :
    (vectorToAdd length t).getD i 0 =
      if (simhashHash t).testBit i then (1 : Int) else -1 := by
  unfold vectorToAdd
  rw [List.getD_eq_getElem _ _ (by simpa using hi)]
  simp only [List.getElem_map, List.getElem_range]
  congr 1
  rw [Nat.one_shiftLeft, Nat.and_two_pow]
  cases h : (simhashHash t).testBit i <;> simp [h]

theorem foldl_zipWith_length (toks : List Str) (length : Nat) (v : List Int)
    (hv : v.length = length) :
    (toks.foldl (fun v token => List.zipWith (· + ·) v (vectorToAdd length token)) v).length
      = length := by
  induction toks generalizing v with
  | nil => simpa
  | cons t ts ih =>
    simp only [List.foldl_cons]
    exact ih _ (by simp [List.length_zipWith, hv, vectorToAdd_length])

theorem foldl_zipWith_getD (toks : List Str) (length : Nat) (v : List Int) (i : Nat)
    (hv : v.length = length) (hi : i < length) :
    (toks.foldl (fun v token => List.zipWith (· + ·) v (vectorToAdd length token)) v).getD i 0
      = v.getD i 0 +
        (toks.map (fun t => if (simhashHash t).testBit i then (1 : Int) else -1)).sum := by
  induction toks generalizing v with
  | nil => simp
  | cons t ts ih =>
    simp only [List.foldl_cons, List.map_cons, List.sum_cons]
    rw [ih _ (by simp [List.length_zipWith, hv, vectorToAdd_length])]
    rw [zipWith_add_getD _ _ _ (by omega) (by rw [vectorToAdd_length]; omega)]
    rw [vectorToAdd_getD _ _ _ hi]
    ring

theorem createHash_eq_bitSum (length : Nat) (s : Str) :
    createHash length s = bitSum (fun i => decide (0 ≤ simhashAggregate length s i)) length := by
  unfold createHash bitSum
  dsimp only
  congr 2
  apply List.filter_congr
  intro i hi
  have hi' : i < length := by simpa using hi
  rw [foldl_zipWith_getD _ _ _ _ (by simp) hi']
  rw [List.getD_eq_getElem _ _ (by simpa using hi')]
  simp [simhashAggregate]

theorem createHash_lt (length : Nat) (s : Str) : createHash length s < 2 ^ length := by
  rw [createHash_eq_bitSum]; exact bitSum_lt _ _

theorem createHash_testBit (length : Nat) (s : Str) (i : Nat) (hi : i < length) :
    (createHash length s).testBit i = decide (0 ≤ simhashAggregate length s i) := by
  rw [createHash_eq_bitSum, testBit_bitSum]
  simp [hi]

/-! ## Helper lemmas: permutation invariance and degenerate inputs -/

theorem sampleGo_perm (length : Nat) {toks1 toks2 spl1 spl2 : List Str}
    (ht : toks1.Perm toks2) (hs : spl1.Perm spl2) :
    ∀ idx : List Nat, (sampleGo length toks1 spl1 idx).Perm (sampleGo length toks2 spl2 idx) := by
  intro idx
  induction idx generalizing spl1 spl2 with
  | nil => simpa [sampleGo]
  | cons i rest ih =>
    simp only [sampleGo]
    have hfp : (toks1.filter (fun t => decide (i < t.length))).Perm
        (toks2.filter (fun t => decide (i < t.length))) := ht.filter _
    rw [hfp.length_eq]
    by_cases hc : length ≤ 2 * (toks2.filter (fun t => decide (i < t.length))).length
    · simpa [hc] using hfp
    · simpa [hc] using ih hfp

theorem sampleTokens_perm (length : Nat) {s1 s2 : Str}
    (h : (splitWS s1).Perm (splitWS s2)) :
    (sampleTokens length s1).Perm (sampleTokens length s2) := by
  unfold sampleTokens tokens0
  exact sampleGo_perm length ((h.map stripPunct).filter pyIsAlnum) (List.Perm.refl []) _

theorem createHash_perm (length : Nat) {s1 s2 : Str}
    (h : (splitWS s1).Perm (splitWS s2)) :
    createHash length s1 = createHash length s2 := by
  apply Nat.eq_of_testBit_eq
  intro i
  by_cases hi : i < length
  · rw [createHash_testBit _ _ _ hi, createHash_testBit _ _ _ hi]
    have : simhashAggregate length s1 i = simhashAggregate length s2 i := by
      unfold simhashAggregate
      exact (((sampleTokens_perm length h).map _).sum_eq)
    rw [this]
  · have h1 : createHash length s1 < 2 ^ i :=
      lt_of_lt_of_le (createHash_lt _ _) (Nat.pow_le_pow_right (by norm_num) (by omega))
    have h2 : createHash length s2 < 2 ^ i :=
      lt_of_lt_of_le (createHash_lt _ _) (Nat.pow_le_pow_right (by norm_num) (by omega))
    rw [Nat.testBit_lt_two_pow h1, Nat.testBit_lt_two_pow h2]

theorem createHash_of_sample_nil (length : Nat) (s : Str)
    (h : sampleTokens length s = []) : createHash length s = 2 ^ length - 1 := by
  apply Nat.eq_of_testBit_eq
  intro i
  rw [Nat.testBit_two_pow_sub_one]
  by_cases hi : i < length
  · rw [createHash_testBit _ _ _ hi]
    simp [simhashAggregate, h, hi]
  · have h1 : createHash length s < 2 ^ i :=
      lt_of_lt_of_le (createHash_lt _ _) (Nat.pow_le_pow_right (by norm_num) (by omega))
    rw [Nat.testBit_lt_two_pow h1]
    simp [hi]

/-! ## Helper lemmas: hexadecimal printing and parsing round-trip -/

theorem natToHexAux_irrel : ∀ f1 f2 n, n < f1 → n < f2 → natToHexAux f1 n = natToHexAux f2 n := by
  intro f1
  induction f1 with
  | zero => omega
  | succ f1 ih =>
    intro f2 n h1 h2
    cases f2 with
    | zero => omega
    | succ f2 =>
      simp only [natToHexAux]
      by_cases h : n < 16
      · simp [h]
      · rw [if_neg h, if_neg h, ih f2 (n / 16) (by omega) (by omega)]

theorem natToHex_unfold (n : Nat) :
    natToHex n = if n < 16 then [hexChar n] else natToHex (n / 16) ++ [hexChar (n % 16)] := by
  unfold natToHex
  rw [natToHexAux]
  by_cases h : n < 16
  · simp [h]
  · rw [if_neg h, if_neg h, natToHexAux_irrel n (n / 16 + 1) (n / 16) (by omega) (by omega)]

theorem natToDecAux_irrel : ∀ f1 f2 n, n < f1 → n < f2 → natToDecAux f1 n = natToDecAux f2 n := by
  intro f1
  induction f1 with
  | zero => omega
  | succ f1 ih =>
    intro f2 n h1 h2
    cases f2 with
    | zero => omega
    | succ f2 =>
      simp only [natToDecAux]
      by_cases h : n < 10
      · simp [h]
      · rw [if_neg h, if_neg h, ih f2 (n / 10) (by omega) (by omega)]

theorem natToDec_unfold (n : Nat) :
    natToDec n = if n < 10 then [decChar n] else natToDec (n / 10) ++ [decChar (n % 10)] := by
  unfold natToDec
  rw [natToDecAux]
  by_cases h : n < 10
  · simp [h]
  · rw [if_neg h, if_neg h, natToDecAux_irrel n (n / 10 + 1) (n / 10) (by omega) (by omega)]

theorem natToHex_ne_nil (n : Nat) : natToHex n ≠ [] := by
  rw [natToHex_unfold]
  split <;> simp

theorem hexCharFacts : ∀ d, d < 16 →
    hexVal (hexChar d) = some d ∧ hexChar d ≠ '_' ∧ isPySpace (hexChar d) = false ∧
    hexChar d ≠ '+' ∧ hexChar d ≠ '-' ∧ hexChar d ≠ 'x' ∧ hexChar d ≠ 'X' := by
  decide

theorem mem_natToHex (n : Nat) (c : Char) (hc : c ∈ natToHex n) :
    ∃ d, d < 16 ∧ c = hexChar d := by
  induction n using Nat.strong_induction_on with
  | _ n ih =>
    rw [natToHex_unfold] at hc
    split at hc
    · next h => exact ⟨n, h, by simpa using hc⟩
    · next h =>
      rcases List.mem_append.mp hc with h1 | h2
      · exact ih (n / 16) (by omega) h1
      · exact ⟨n % 16, by omega, by simpa using h2⟩

theorem dropWhile_eq_self_of_all {p : Char → Bool} {l : Str}
    (h : ∀ c ∈ l, p c = false) : l.dropWhile p = l := by
  cases l with
  | nil => rfl
  | cons c cs => simp [List.dropWhile_cons, h c (by simp)]

theorem pyStripSpace_eq_self {l : Str} (h : ∀ c ∈ l, isPySpace c = false) :
    pyStripSpace l = l := by
  unfold pyStripSpace
  rw [dropWhile_eq_self_of_all h]
  rw [dropWhile_eq_self_of_all (fun c hc => h c (List.mem_reverse.mp hc))]
  exact List.reverse_reverse l

theorem natToHex_foldl (n : Nat) : ∀ acc : Nat,
    (natToHex n).foldl (fun a c => 16 * a + (hexVal c).getD 0) acc
      = acc * 16 ^ (natToHex n).length + n := by
  induction n using Nat.strong_induction_on with
  | _ n ih =>
    intro acc
    rw [natToHex_unfold]
    split
    · next h =>
      simp [List.foldl_cons, (hexCharFacts n h).1]
      ring
    · next h =>
      rw [List.foldl_append, List.length_append]
      rw [ih (n / 16) (by omega)]
      simp only [List.foldl_cons, List.foldl_nil, List.length_cons, List.length_nil]
      rw [(hexCharFacts (n % 16) (by omega)).1]
      simp only [Option.getD_some]
      rw [pow_succ]
      have : 16 * (n / 16) + n % 16 = n := Nat.div_add_mod n 16
      ring_nf
      omega

theorem hexDigitsVal_all (l : Str) : ∀ acc : Nat,
    (∀ c ∈ l, (hexVal c).isSome ∧ c ≠ '_') →
    hexDigitsVal acc l = some (l.foldl (fun a c => 16 * a + (hexVal c).getD 0) acc) := by
  induction l with
  | nil => intro acc _; simp [hexDigitsVal]
  | cons c cs ih =>
    intro acc h
    have hc := h c (by simp)
    obtain ⟨d, hd⟩ := Option.isSome_iff_exists.mp hc.1
    rw [hexDigitsVal.eq_def]
    dsimp only
    rw [if_neg (by simpa using hc.2), hd]
    dsimp only
    rw [ih _ (fun c' hc' => h c' (by simp [hc']))]
    simp [hd]

theorem parseHexStart_natToHex (n : Nat) : parseHexStart (natToHex n) = some n := by
  obtain ⟨c, cs, hcs⟩ := List.exists_cons_of_ne_nil (natToHex_ne_nil n)
  have hall : ∀ c' ∈ natToHex n, (hexVal c').isSome ∧ c' ≠ '_' := by
    intro c' hc'
    obtain ⟨d, hd, rfl⟩ := mem_natToHex n c' hc'
    exact ⟨by simp [(hexCharFacts d hd).1], (hexCharFacts d hd).2.1⟩
  obtain ⟨d, hd, hcd⟩ := mem_natToHex n c (hcs ▸ List.mem_cons_self c cs)
  have hvc : hexVal c = some d := hcd ▸ (hexCharFacts d hd).1
  rw [hcs, parseHexStart, hvc]
  dsimp only
  rw [hexDigitsVal_all _ _ (fun c' hc' => hall c' (hcs ▸ List.mem_cons_of_mem c hc'))]
  have hfold := natToHex_foldl n 0
  rw [hcs] at hfold
  simp only [List.foldl_cons, hvc, Option.getD_some, Nat.mul_zero, Nat.zero_add] at hfold
  rw [hfold]
  simp

theorem dropHexMark_natToHex (n : Nat) : dropHexMark (natToHex n) = natToHex n := by
  rw [dropHexMark.eq_def]
  split
  · next c rest heq =>
    rw [if_neg]
    obtain ⟨d, hd, hcd⟩ := mem_natToHex n c (by rw [heq]; simp)
    subst hcd
    simp [(hexCharFacts d hd).2.2.2.2.2.1, (hexCharFacts d hd).2.2.2.2.2.2]
  · rfl

theorem parseHexPy_natToHex (n : Nat) : parseHexPy (natToHex n) = some (n : Int) := by
  have hall : ∀ c ∈ natToHex n, isPySpace c = false := by
    intro c hc
    obtain ⟨d, hd, rfl⟩ := mem_natToHex n c hc
    exact (hexCharFacts d hd).2.2.1
  obtain ⟨c, cs, hcs⟩ := List.exists_cons_of_ne_nil (natToHex_ne_nil n)
  obtain ⟨d, hd, hcd⟩ := mem_natToHex n c (hcs ▸ List.mem_cons_self c cs)
  rw [parseHexPy.eq_def, pyStripSpace_eq_self hall, hcs]
  dsimp only
  rw [if_neg (by rw [hcd]; exact (hexCharFacts d hd).2.2.2.1)]
  rw [if_neg (by rw [hcd]; exact (hexCharFacts d hd).2.2.2.2.1)]
  rw [← hcs, parseHexBody, dropHexMark_natToHex, parseHexStart_natToHex]
  rfl

theorem natToHex_length_le (k : Nat) : ∀ n, n < 16 ^ k → 1 ≤ k → (natToHex n).length ≤ k := by
  induction k with
  | zero => omega
  | succ k ih =>
    intro n hn _
    rw [natToHex_unfold]
    split
    · simp
    · next h =>
      rw [List.length_append]
      have h1 : n / 16 < 16 ^ k := by
        rw [pow_succ] at hn
        omega
      have h2 : 1 ≤ k := by
        by_contra hk
        have : k = 0 := by omega
        subst this
        simp at h1
        omega
      have := ih (n / 16) h1 h2
      simp only [List.length_cons, List.length_nil]
      omega

/-! ## Helper lemmas: popcount, Python integer xor, decimal lengths -/

theorem popcount_eq_zero (n : Nat) : popcount n = 0 ↔ n = 0 := by
  induction n using Nat.strong_induction_on with
  | _ n ih =>
    rw [popcount]
    split
    · next h => simp [h]
    · next h =>
      constructor
      · intro hsum
        have h1 : n % 2 = 0 := by omega
        have h2 : popcount (n / 2) = 0 := by omega
        have := (ih (n / 2) (by omega)).mp h2
        omega
      · intro hn; omega

theorem popcount_le (k : Nat) : ∀ n, n < 2 ^ k → popcount n ≤ k := by
  induction k with
  | zero =>
    intro n hn
    simp at hn
    simp [hn, popcount]
  | succ k ih =>
    intro n hn
    rw [popcount]
    split
    · omega
    · next h =>
      have h1 : n / 2 < 2 ^ k := by
        rw [pow_succ] at hn
        omega
      have := ih (n / 2) h1
      omega

theorem pyIntXor_comm (a b : Int) : pyIntXor a b = pyIntXor b a := by
  unfold pyIntXor
  split_ifs <;> exact congrArg _ (Nat.xor_comm _ _)

theorem pyIntXor_eq_zero (a b : Int) : pyIntXor a b = 0 ↔ a = b := by
  unfold pyIntXor
  split_ifs with h1 h2 h3
  · rw [show ((Int.ofNat (Nat.xor a.toNat b.toNat) = 0) ↔ Nat.xor a.toNat b.toNat = 0) by
      simp]
    rw [show Nat.xor a.toNat b.toNat = a.toNat ^^^ b.toNat from rfl, Nat.xor_eq_zero]
    omega
  · constructor
    · intro h; cases h
    · intro h; omega
  · constructor
    · intro h; cases h
    · intro h; omega
  · rw [show ((Int.ofNat (Nat.xor (-(a+1)).toNat (-(b+1)).toNat) = 0) ↔
      Nat.xor (-(a+1)).toNat (-(b+1)).toNat = 0) by simp]
    rw [show Nat.xor (-(a+1)).toNat (-(b+1)).toNat = (-(a+1)).toNat ^^^ (-(b+1)).toNat from rfl,
      Nat.xor_eq_zero]
    omega

theorem pyIntXor_ofNat (a b : Nat) : pyIntXor (a : Int) (b : Int) = (Nat.xor a b : Int) := by
  unfold pyIntXor
  rw [if_pos (by omega), if_pos (by omega)]
  simp

theorem natToDec_length_le (k : Nat) : ∀ n, n < 10 ^ k → 1 ≤ k → (natToDec n).length ≤ k := by
  induction k with
  | zero => omega
  | succ k ih =>
    intro n hn _
    rw [natToDec_unfold]
    split
    · simp
    · next h =>
      rw [List.length_append]
      have h1 : n / 10 < 10 ^ k := by
        rw [pow_succ] at hn
        omega
      have h2 : 1 ≤ k := by
        by_contra hk
        have : k = 0 := by omega
        subst this
        simp at h1
        omega
      have := ih (n / 10) h1 h2
      simp only [List.length_cons, List.length_nil]
      omega

theorem natToDec_length_ge (k : Nat) : ∀ n, 10 ^ k ≤ n → k + 1 ≤ (natToDec n).length := by
  induction k with
  | zero =>
    intro n _
    rw [natToDec_unfold]
    split <;> simp
  | succ k ih =>
    intro n hn
    rw [natToDec_unfold]
    have h10 : 10 ≤ n := le_trans (Nat.le_self_pow (by omega) 10) hn
    rw [if_neg (by omega)]
    rw [List.length_append]
    have h1 : 10 ^ k ≤ n / 10 := by
      rw [Nat.le_div_iff_mul_le (by norm_num)]
      rw [pow_succ] at hn
      omega
    have := ih (n / 10) h1
    simp only [List.length_cons, List.length_nil]
    omega

theorem natToDec_length_eq_16 (n : Nat) :
    (natToDec n).length = 16 ↔ 10 ^ 15 ≤ n ∧ n < 10 ^ 16 := by
  constructor
  · intro h
    constructor
    · by_contra hlt
      have := natToDec_length_le 15 n (by omega) (by norm_num)
      omega
    · by_contra hge
      have := natToDec_length_ge 16 n (by omega)
      omega
  · intro ⟨h1, h2⟩
    have ha := natToDec_length_le 16 n h2 (by norm_num)
    have hb := natToDec_length_ge 15 n h1
    omega

/-! ## Claim theorems: Simhash serialisation and similarity -/

theorem mkSimhash_default_hash (s : Str) :
    (mkSimhash s).hash = (createHash 64 s : Int) := rfl

theorem toHex_mkSimhash (s : Str) :
    toHex (mkSimhash s) = natToHex (createHash 64 s) := by
  unfold toHex pyHexRepr
  rw [mkSimhash_default_hash]
  rw [if_neg (by omega)]
  simp

/-- Claim C1: for every `Simhash` constructed from an input string with the
default bit length 64, `validate(to_hex(h))` returns `h.hash`: serialising
the fingerprint to its hexadecimal string and validating that string
recovers the identical numeric hash. -/
theorem hashing_c1_roundtrip (s : Str) :
    validate (.str (toHex (mkSimhash s))) = some (mkSimhash s).hash := by
  have hlt : createHash 64 s < 2 ^ 64 := createHash_lt 64 s
  rw [toHex_mkSimhash]
  have hlen : (natToHex (createHash 64 s)).length ≤ 16 := by
    apply natToHex_length_le 16 _ _ (by norm_num)
    have : (16 : Nat) ^ 16 = 2 ^ 64 := by norm_num
    omega
  unfold validate
  dsimp only
  rw [if_neg (by intro ⟨_, h18, _⟩; omega)]
  unfold hashToInt
  rw [parseHexPy_natToHex, mkSimhash_default_hash]

/-- Claim C2: `similarity(Simhash(X), Simhash(X))` is 1; `hamming_distance`
is symmetric and is zero exactly when the two numeric hashes coincide; and
the similarity of two fingerprints built from input strings (each a 64-bit
value) lies in [0, 1], being `(length - distance) / length`. -/
theorem hashing_c2_similarity (s t : Str) :
    similarity (mkSimhash s) (mkSimhash s) = 1 ∧
    (∀ a b : Simhash, hammingDistance a b = hammingDistance b a) ∧
    (∀ a b : Simhash, hammingDistance a b = 0 ↔ a.hash = b.hash) ∧
    0 ≤ similarity (mkSimhash s) (mkSimhash t) ∧
    similarity (mkSimhash s) (mkSimhash t) ≤ 1 := by
  have hsym : ∀ a b : Simhash, hammingDistance a b = hammingDistance b a := by
    intro a b
    unfold hammingDistance
    rw [pyIntXor_comm]
  have hzero : ∀ a b : Simhash, hammingDistance a b = 0 ↔ a.hash = b.hash := by
    intro a b
    unfold hammingDistance
    rw [popcount_eq_zero, Int.natAbs_eq_zero, pyIntXor_eq_zero]
  have hlen : ∀ u : Str, ((mkSimhash u).length : ℚ) = 64 := fun u => by norm_num [mkSimhash]
  have hd_le : hammingDistance (mkSimhash s) (mkSimhash t) ≤ 64 := by
    unfold hammingDistance
    rw [mkSimhash_default_hash, mkSimhash_default_hash, pyIntXor_ofNat]
    rw [Int.natAbs_ofNat]
    exact popcount_le 64 _ (Nat.xor_lt_two_pow (createHash_lt 64 s) (createHash_lt 64 t))
  refine ⟨?_, hsym, hzero, ?_, ?_⟩
  · have hself : hammingDistance (mkSimhash s) (mkSimhash s) = 0 := (hzero _ _).mpr rfl
    unfold similarity
    rw [hself, hlen]
    norm_num
  · unfold similarity
    rw [hlen]
    apply div_nonneg _ (by norm_num)
    have : (hammingDistance (mkSimhash s) (mkSimhash t) : ℚ) ≤ 64 := by exact_mod_cast hd_le
    linarith
  · unfold similarity
    rw [hlen]
    rw [div_le_one (by norm_num)]
    have : (0 : ℚ) ≤ (hammingDistance (mkSimhash s) (mkSimhash t) : ℚ) := by positivity
    linarith

/-- Claim C9: for every input whose sampled token list is empty, every
component of the zero aggregate vector satisfies the `>= 0` test, so
`create_hash` returns the all-ones pattern `2^length - 1`; in particular
`content_fingerprint("")` is the hex string `"ffffffffffffffff"`. -/
theorem hashing_c9_empty_input (length : Nat) (s : Str)
    (h : sampleTokens length s = []) :
    createHash length s = 2 ^ length - 1 ∧
    contentFingerprint [] = "ffffffffffffffff".data := by
  refine ⟨createHash_of_sample_nil length s h, ?_⟩
  rw [show contentFingerprint ([] : Str) = natToHex (createHash 64 []) from toHex_mkSimhash [],
    createHash_of_sample_nil 64 [] (by decide)]
  decide

theorem hashing_c9_empty_input_witness :
    sampleTokens 64 [] = [] ∧
    (createHash 64 [] = 2 ^ 64 - 1 ∧ contentFingerprint [] = "ffffffffffffffff".data) :=
  ⟨by decide, hashing_c9_empty_input 64 [] (by decide)⟩

/-- Claim C10: an `existing_hash` whose validated numeric value is 0 is
discarded, because the validated value is combined with the freshly computed
hash via boolean `or`: `Simhash(s, existing_hash="0").hash` equals
`Simhash(s).hash`, so an all-zero fingerprint cannot be restored. -/
theorem hashing_c10_zero_discarded :
    (∀ (s : Str) (eh : PyVal), validate eh = some 0 →
      (mkSimhash s 64 eh).hash = (mkSimhash s).hash) ∧
    (∀ s : Str, (mkSimhash s 64 (.str ['0'])).hash = (mkSimhash s).hash) ∧
    validate (.str ['0']) = some 0 := by
  have hz : validate (.str ['0']) = some 0 := by decide
  refine ⟨?_, ?_, hz⟩
  · intro s eh h
    unfold mkSimhash
    rw [h]
    rfl
  · intro s
    unfold mkSimhash
    rw [hz]
    rfl

theorem hashing_c10_zero_discarded_witness :
    validate (.str ['0']) = some 0 ∧
    (mkSimhash [] 64 (.str ['0'])).hash = (mkSimhash []).hash :=
  ⟨by decide, hashing_c10_zero_discarded.1 [] (.str ['0']) (by decide)⟩

/-! ## Claim theorems: token vectors, sampling, validation shapes -/

/-- Claim C3: each sampled token contributes a vector of plus-one and minus-one components, one
per bit position, with `+1` exactly when bit `i` of the token's 8-byte
blake2b digest (read big-endian as an unsigned integer) is set; bit `i` of
the final hash is set exactly when the component-wise aggregate at `i` is
`≥ 0`; and the hash is invariant under permutation of the input's
whitespace-separated tokens. -/
theorem hashing_c3_vector_aggregate (length : Nat) (s s2 t : Str) (i : Nat)
    (hi : i < length) (hperm : (splitWS s).Perm (splitWS s2)) :
    vectorToAdd length t
      = (List.range length).map (fun j => if (simhashHash t).testBit j then (1 : Int) else -1) ∧
    (createHash length s).testBit i = decide (0 ≤ simhashAggregate length s i) ∧
    createHash length s = createHash length s2 := by
  refine ⟨?_, createHash_testBit length s i hi, createHash_perm length hperm⟩
  unfold vectorToAdd
  apply List.map_congr_left
  intro j _
  rw [Nat.one_shiftLeft, Nat.and_two_pow]
  cases h : (simhashHash t).testBit j <;> simp [h]

theorem hashing_c3_vector_aggregate_witness :
    (0 < 64 ∧ (splitWS "b a".data).Perm (splitWS "a b".data)) ∧
    (vectorToAdd 64 "x".data
        = (List.range 64).map (fun j => if (simhashHash "x".data).testBit j then (1 : Int) else -1) ∧
      (createHash 64 "b a".data).testBit 0 = decide (0 ≤ simhashAggregate 64 "b a".data 0) ∧
      createHash 64 "b a".data = createHash 64 "a b".data) :=
  ⟨⟨by decide, by decide⟩,
    hashing_c3_vector_aggregate 64 "b a".data "a b".data "x".data 0 (by decide) (by decide)⟩

/-- The claim-side threshold condition (C4): at length threshold `i`, the
surviving token count reaches half the target bit length. -/
def thresholdOK (length : Nat) (toks : List Str) (i : Nat) : Prop :=
  length ≤ 2 * (toks.filter (fun t => i < t.length)).length

instance (length : Nat) (toks : List Str) : DecidablePred (thresholdOK length toks) :=
  fun _ => by unfold thresholdOK; infer_instance

/-- Claim C4: the sampler keeps whitespace-split tokens that are
alphanumeric after stripping punctuation, then returns the sample of the
most restrictive threshold `i ∈ {4,…,0}` whose surviving count reaches half
the bit length (`Nat.findGreatest`); when no threshold reaches the target,
`Nat.findGreatest` is 0 and the least restrictive sample is returned. -/
theorem hashing_c4_sampler (length : Nat) (s : Str) :
    sampleTokens length s
      = (tokens0 s).filter
          (fun t => Nat.findGreatest (thresholdOK length (tokens0 s)) 4 < t.length) := by
  set P := thresholdOK length (tokens0 s) with hP
  have e4 : Nat.findGreatest P 4 = if P 4 then 4 else Nat.findGreatest P 3 :=
    Nat.findGreatest_succ 3
  have e3 : Nat.findGreatest P 3 = if P 3 then 3 else Nat.findGreatest P 2 :=
    Nat.findGreatest_succ 2
  have e2 : Nat.findGreatest P 2 = if P 2 then 2 else Nat.findGreatest P 1 :=
    Nat.findGreatest_succ 1
  have e1 : Nat.findGreatest P 1 = if P 1 then 1 else Nat.findGreatest P 0 :=
    Nat.findGreatest_succ 0
  have e0 : Nat.findGreatest P 0 = 0 := rfl
  unfold sampleTokens
  simp only [sampleGo]
  by_cases h4 : length ≤ 2 * ((tokens0 s).filter (fun t => 4 < t.length)).length
  · rw [if_pos h4, e4, if_pos (show P 4 from h4)]
  rw [if_neg h4, e4, if_neg (show ¬ P 4 from h4)]
  by_cases h3 : length ≤ 2 * ((tokens0 s).filter (fun t => 3 < t.length)).length
  · rw [if_pos h3, e3, if_pos (show P 3 from h3)]
  rw [if_neg h3, e3, if_neg (show ¬ P 3 from h3)]
  by_cases h2 : length ≤ 2 * ((tokens0 s).filter (fun t => 2 < t.length)).length
  · rw [if_pos h2, e2, if_pos (show P 2 from h2)]
  rw [if_neg h2, e2, if_neg (show ¬ P 2 from h2)]
  by_cases h1 : length ≤ 2 * ((tokens0 s).filter (fun t => 1 < t.length)).length
  · rw [if_pos h1, e1, if_pos (show P 1 from h1)]
  rw [if_neg h1, e1, if_neg (show ¬ P 1 from h1)]
  rw [e0]
  by_cases h0 : length ≤ 2 * ((tokens0 s).filter (fun t => 0 < t.length)).length
  · rw [if_pos h0]
  · rw [if_neg h0]

theorem natToDec_length_eq (k : Nat) (hk : 2 ≤ k) (n : Nat) :
    (natToDec n).length = k ↔ 10 ^ (k - 1) ≤ n ∧ n < 10 ^ k := by
  constructor
  · intro h
    constructor
    · by_contra hlt
      have := natToDec_length_le (k - 1) n (by omega) (by omega)
      omega
    · by_contra hge
      have := natToDec_length_ge k n (by omega)
      omega
  · intro ⟨h1, h2⟩
    have ha := natToDec_length_le k n h2 (by omega)
    have hb := natToDec_length_ge (k - 1) n h1
    omega

theorem pyStrOfInt_length_16 (i : Int) :
    (pyStrOfInt i).length = 16 ↔
      ((10 : Int) ^ 15 ≤ i ∧ i < 10 ^ 16) ∨ (-((10 : Int) ^ 15) < i ∧ i ≤ -((10 : Int) ^ 14)) := by
  have p14 : (10 : Int) ^ 14 = 100000000000000 := by norm_num
  have p15 : (10 : Int) ^ 15 = 1000000000000000 := by norm_num
  have p16 : (10 : Int) ^ 16 = 10000000000000000 := by norm_num
  have q14 : (10 : Nat) ^ 14 = 100000000000000 := by norm_num
  have q15 : (10 : Nat) ^ 15 = 1000000000000000 := by norm_num
  have q16 : (10 : Nat) ^ 16 = 10000000000000000 := by norm_num
  unfold pyStrOfInt
  by_cases hi : i < 0
  · rw [if_pos hi]
    simp only [List.length_cons]
    rw [show (natToDec (-i).toNat).length + 1 = 16 ↔ (natToDec (-i).toNat).length = 15 by omega]
    rw [natToDec_length_eq 15 (by norm_num)]
    rw [p14, p15, p16, q14, q15]
    norm_num
    omega
  · rw [if_neg hi]
    rw [natToDec_length_eq 16 (by norm_num)]
    rw [p14, p15, p16, q15, q16]
    norm_num
    omega

/-- Claim C5 (amended): `validate` accepts an `int` exactly when its `str()`
form has 16 characters — that is, `10^15 ≤ i < 10^16` or, because the sign
occupies a character, `-10^15 < i ≤ -10^14` — returning it unchanged; a
digits-only string of length 18–22 is parsed as a decimal integer; any
other string is handed to the base-16 parser (`None` when unparseable); and
`None` and values of other types are rejected. -/
theorem hashing_c5_validate_shapes :
    (∀ i : Int, validate (.int i)
        = if ((10 : Int) ^ 15 ≤ i ∧ i < 10 ^ 16) ∨
            (-((10 : Int) ^ 15) < i ∧ i ≤ -((10 : Int) ^ 14))
          then some i else none) ∧
    (∀ s : Str, pyIsDigitStr s ∧ 18 ≤ s.length ∧ s.length ≤ 22 →
      validate (.str s) = some ((decDigitsVal s : Int))) ∧
    (∀ s : Str, ¬(pyIsDigitStr s = true ∧ 18 ≤ s.length ∧ s.length ≤ 22) →
      validate (.str s) = parseHexPy s) ∧
    validate .pynone = none ∧ validate .other = none := by
  refine ⟨?_, ?_, ?_, rfl, rfl⟩
  · intro i
    unfold validate
    dsimp only
    by_cases h : ((10 : Int) ^ 15 ≤ i ∧ i < 10 ^ 16) ∨
        (-((10 : Int) ^ 15) < i ∧ i ≤ -((10 : Int) ^ 14))
    · rw [if_pos ((pyStrOfInt_length_16 i).mpr h), if_pos h]
    · rw [if_neg (fun hc => h ((pyStrOfInt_length_16 i).mp hc)), if_neg h]
  · intro s h
    unfold validate
    dsimp only
    rw [if_pos h]
  · intro s h
    unfold validate
    dsimp only
    rw [if_neg h]
    rfl

theorem hashing_c5_validate_shapes_witness :
    (pyIsDigitStr "123456789012345678".data ∧
      18 ≤ ("123456789012345678".data : Str).length ∧
      ("123456789012345678".data : Str).length ≤ 22) ∧
    validate (.str "123456789012345678".data) = some ((decDigitsVal "123456789012345678".data : Int)) ∧
    ¬(pyIsDigitStr "ff".data = true ∧
      18 ≤ ("ff".data : Str).length ∧ ("ff".data : Str).length ≤ 22) ∧
    validate (.str "ff".data) = parseHexPy "ff".data :=
  ⟨by decide, hashing_c5_validate_shapes.2.1 _ (by decide), by decide,
    hashing_c5_validate_shapes.2.2.1 _ (by decide)⟩

/-- Claim C5 is refuted on negative integers: `-1999999999999999` has 16
decimal digits yet is rejected (its `str()` form has 17 characters), while
the 15-digit `-999999999999999` is accepted unchanged (its `str()` form has
16 characters). -/
theorem hashing_c5_counterexample :
    validate (.int (-1999999999999999)) = none ∧
    validate (.int (-999999999999999)) = some (-999999999999999) := by
  constructor <;> decide

/-! ## Helper lemmas: bag-of-words hashing and base64 -/

theorem closeRun_props (cur : Str) (hcur : cur.all isWordHyphen = true) :
    ∀ w ∈ closeRun cur, 3 ≤ w.length ∧ w.all isWordHyphen = true := by
  intro w hw
  unfold closeRun at hw
  split at hw
  · next h =>
    rcases List.mem_singleton.mp hw with rfl
    constructor
    · simpa using h
    · simpa using hcur
  · simp at hw

theorem findWordsAux_props (l : Str) : ∀ cur : Str, cur.all isWordHyphen = true →
    ∀ w ∈ findWordsAux cur l, 3 ≤ w.length ∧ w.all isWordHyphen = true := by
  induction l with
  | nil => exact fun cur hcur => closeRun_props cur hcur
  | cons c cs ih =>
    intro cur hcur w hw
    rw [findWordsAux] at hw
    split at hw
    · next hc => exact ih (c :: cur) (by simp [hc, hcur]) w hw
    · rcases List.mem_append.mp hw with h1 | h2
      · exact closeRun_props cur hcur w h1
      · exact ih [] (by simp) w h2

theorem findWords_props (l : Str) :
    ∀ w ∈ findWords l, 3 ≤ w.length ∧ w.all isWordHyphen = true :=
  findWordsAux_props l [] (by simp)

theorem flatten_bytes_length (hF : List Nat) :
    (((List.range 8).map (fun i => bytesLE8 (hF.getD i 0))).flatten).length = 64 := by
  simp only [List.length_flatten, List.map_map, Function.comp_def, bytesLE8,
    List.length_map, List.length_range]
  rfl

theorem blake2b_length (data : List Nat) (nn : Nat) (h : nn ≤ 64) :
    (blake2b data nn).length = nn := by
  unfold blake2b
  rw [List.length_take, flatten_bytes_length]
  omega

theorem blake2b_bytes_lt (data : List Nat) (nn : Nat) :
    ∀ b ∈ blake2b data nn, b < 256 := by
  intro b hb
  unfold blake2b at hb
  have hb2 := List.take_subset _ _ hb
  rw [List.mem_flatten] at hb2
  obtain ⟨l, hl, hbl⟩ := hb2
  rw [List.mem_map] at hl
  obtain ⟨i, _, rfl⟩ := hl
  unfold bytesLE8 at hbl
  rw [List.mem_map] at hbl
  obtain ⟨j, _, rfl⟩ := hbl
  exact Nat.mod_lt _ (by norm_num)

theorem b64Char_safe : ∀ n, n < 64 →
    (b64Char n).isAlphanum = true ∨ b64Char n = '-' ∨ b64Char n = '_' := by
  decide

theorem b64urlEncode_props : ∀ bs : List Nat, bs.length % 3 = 0 → (∀ b ∈ bs, b < 256) →
    (b64urlEncode bs).length = 4 * (bs.length / 3) ∧
    ∀ c ∈ b64urlEncode bs, c.isAlphanum = true ∨ c = '-' ∨ c = '_' := by
  intro bs
  induction bs using b64urlEncode.induct with
  | case1 => intro _ _; simp [b64urlEncode]
  | case2 a => intro h _; simp at h
  | case3 a b => intro h _; simp at h
  | case4 a b c rest ih =>
    intro hlen hbytes
    have ha : a < 256 := hbytes a (by simp)
    have hb : b < 256 := hbytes b (by simp)
    have hc : c < 256 := hbytes c (by simp)
    have hlen' : rest.length % 3 = 0 := by
      simp only [List.length_cons] at hlen
      omega
    obtain ⟨ih1, ih2⟩ := ih hlen' (fun x hx => hbytes x (by simp [hx]))
    constructor
    · simp only [b64urlEncode, List.length_cons, ih1]
      simp only [List.length_cons] at hlen ⊢
      omega
    · intro ch hch
      simp only [b64urlEncode, List.mem_cons] at hch
      rcases hch with rfl | rfl | rfl | rfl | hch
      · exact b64Char_safe _ (by omega)
      · exact b64Char_safe _ (by omega)
      · exact b64Char_safe _ (by omega)
      · exact b64Char_safe _ (by omega)
      · exact ih2 ch hch

/-- Claim C8: `generate_bow_hash` lower-cases the input, extracts word-like
tokens of length at least 3, joins them with single spaces, and returns the
fixed-size blake2b digest of that string (24 bytes by default);
`generate_hash_filename` deterministically returns the URL-safe base64
encoding of the 12-byte such digest — a 16-character filename-safe string,
equal for equal contents. -/
theorem hashing_c8_bow_filename (s w : Str) (hw : w ∈ findWords (pyLower s)) :
    (3 ≤ w.length ∧ w.all isWordHyphen = true) ∧
    generateBowHash s 24
      = blake2b (utf8Encode (pyStripSpace (joinSpace (findWords (pyLower s))))) 24 ∧
    (generateBowHash s 24).length = 24 ∧
    generateHashFilename s = b64urlEncode (generateBowHash s 12) ∧
    (generateHashFilename s).length = 16 ∧
    (generateHashFilename s).all (fun c => c.isAlphanum || c = '-' || c = '_') = true := by
  have h12 : (generateBowHash s 12).length = 12 := blake2b_length _ _ (by norm_num)
  have hbytes : ∀ b ∈ generateBowHash s 12, b < 256 := blake2b_bytes_lt _ _
  have hb64 := b64urlEncode_props (generateBowHash s 12) (by rw [h12]) hbytes
  refine ⟨findWords_props _ w hw, rfl, blake2b_length _ _ (by norm_num), rfl, ?_, ?_⟩
  · show (b64urlEncode (generateBowHash s 12)).length = 16
    rw [hb64.1, h12]
  · rw [List.all_eq_true]
    intro c hc
    rcases hb64.2 c hc with h | h | h <;> simp [h]

theorem hashing_c8_bow_filename_witness :
    "abc".data ∈ findWords (pyLower "abc".data) ∧
    ((3 ≤ ("abc".data : Str).length ∧ ("abc".data : Str).all isWordHyphen = true) ∧
      generateBowHash "abc".data 24
        = blake2b (utf8Encode (pyStripSpace (joinSpace (findWords (pyLower "abc".data))))) 24 ∧
      (generateBowHash "abc".data 24).length = 24 ∧
      generateHashFilename "abc".data = b64urlEncode (generateBowHash "abc".data 12) ∧
      (generateHashFilename "abc".data).length = 16 ∧
      (generateHashFilename "abc".data).all
        (fun c => c.isAlphanum || c = '-' || c = '_') = true) :=
  ⟨by decide, hashing_c8_bow_filename "abc".data "abc".data (by decide)⟩

/-! ## Claim theorems: download buffer and decompression (spec-modelled) -/

/-- The 18 URLs of `test_queue`: three per each of six distinct origins. -/
def queueTestUrls : List Str :=
  ["https://test1.org/1".data, "https://test1.org/2".data, "https://test1.org/3".data,
   "https://test2.org/1".data, "https://test2.org/2".data, "https://test2.org/3".data,
   "https://test3.org/1".data, "https://test3.org/2".data, "https://test3.org/3".data,
   "https://test4.org/1".data, "https://test4.org/2".data, "https://test4.org/3".data,
   "https://test5.org/1".data, "https://test5.org/2".data, "https://test5.org/3".data,
   "https://test6.org/1".data, "https://test6.org/2".data, "https://test6.org/3".data]

theorem loadBuffer_le (st : UrlStoreM) (sleepTime now : ℚ) :
    (loadDownloadBuffer st sleepTime now).1.length ≤ st.buckets.length := by
  unfold loadDownloadBuffer
  calc ((st.buckets.map (takeBucket sleepTime now)).filterMap Prod.fst).length
      ≤ (st.buckets.map (takeBucket sleepTime now)).length := List.length_filterMap_le _ _
    _ = st.buckets.length := List.length_map _ _

theorem loadBuffer_buckets_length (st : UrlStoreM) (sleepTime now : ℚ) :
    (loadDownloadBuffer st sleepTime now).2.buckets.length = st.buckets.length := by
  unfold loadDownloadBuffer
  dsimp only
  simp

theorem loadBuffer_fresh_length (bl : List (Str × List Str × Option ℚ)) (sleepTime now : ℚ)
    (h : ∀ b ∈ bl, b.2.1 ≠ [] ∧ b.2.2 = none) :
    ((bl.map (takeBucket sleepTime now)).filterMap Prod.fst).length = bl.length := by
  induction bl with
  | nil => simp
  | cons b bl ih =>
    obtain ⟨o, us, tt⟩ := b
    obtain ⟨hne, ht⟩ := h _ (List.mem_cons_self _ _)
    obtain ⟨u, us', rfl⟩ := List.exists_cons_of_ne_nil (show us ≠ [] from hne)
    have ht' : tt = none := ht
    subst ht'
    simp only [List.map_cons, takeBucket, if_true, List.filterMap_cons, List.length_cons]
    rw [ih (fun b hb => h b (List.mem_cons_of_mem _ hb))]

/-- Claim C6: on the freshly populated store built from 18 URLs with 3 URLs
on each of 6 distinct origins, the first download buffer has exactly 6
entries (one per origin, whatever the politeness interval); any buffer
never exceeds the number of origin buckets in the store, so a second call —
at any time, with any interval — returns between 0 and 6 entries. -/
theorem queue_c6_buffer_sizes :
    (addToStore queueTestUrls).buckets.length = 6 ∧
    (∀ sleepTime now : ℚ,
      (loadDownloadBuffer (addToStore queueTestUrls) sleepTime now).1.length = 6) ∧
    (∀ (st : UrlStoreM) (sleepTime now : ℚ),
      (loadDownloadBuffer st sleepTime now).1.length ≤ st.buckets.length) ∧
    (∀ sleepTime now s2 t2 : ℚ,
      (loadDownloadBuffer (loadDownloadBuffer (addToStore queueTestUrls) sleepTime now).2
        s2 t2).1.length ≤ 6) := by
  have h6 : (addToStore queueTestUrls).buckets.length = 6 := by decide
  have hfresh : ∀ b ∈ (addToStore queueTestUrls).buckets, b.2.1 ≠ [] ∧ b.2.2 = none := by
    decide
  refine ⟨h6, ?_, loadBuffer_le, ?_⟩
  · intro sleepTime now
    have := loadBuffer_fresh_length (addToStore queueTestUrls).buckets sleepTime now hfresh
    unfold loadDownloadBuffer
    rw [this, h6]
  · intro sleepTime now s2 t2
    have hle := loadBuffer_le (loadDownloadBuffer (addToStore queueTestUrls) sleepTime now).2 s2 t2
    rw [loadBuffer_buckets_length, h6] at hle
    exact hle

/-- Claim C7: `handle_compressed_file` returns non-compressed or corrupt
input unchanged rather than raising: when every available decompressor
rejects the bytes the original data comes back verbatim — in particular for
a gzip magic prefix followed by garbage, a zstd magic prefix followed by
garbage, and plain non-compressed text. -/
theorem decode_c7_garbage_unchanged :
    (∀ (decoders : List (List Nat → Option (List Nat))) (data : List Nat),
      (∀ d ∈ decoders, d data = none) → handleCompressedFile decoders data = data) ∧
    handleCompressedFile [gzipDecompressM, zstdDecompressM]
      [0x1f, 0x8b, 0x08, 0x61, 0x62, 0x63] = [0x1f, 0x8b, 0x08, 0x61, 0x62, 0x63] ∧
    handleCompressedFile [gzipDecompressM, zstdDecompressM]
      [0x28, 0xb5, 0x2f, 0xfd, 0x61, 0x62, 0x63] = [0x28, 0xb5, 0x2f, 0xfd, 0x61, 0x62, 0x63] ∧
    handleCompressedFile [gzipDecompressM, zstdDecompressM] (utf8Encode "äöüß".data)
      = utf8Encode "äöüß".data := by
  refine ⟨?_, by decide, by decide, by decide⟩
  intro decoders data h
  induction decoders with
  | nil => rfl
  | cons d rest ih =>
    have hd := h d (List.mem_cons_self _ _)
    simp only [handleCompressedFile, hd]
    exact ih (fun d' hd' => h d' (List.mem_cons_of_mem _ hd'))

theorem decode_c7_garbage_unchanged_witness :
    (∀ d ∈ ([gzipDecompressM, zstdDecompressM] : List (List Nat → Option (List Nat))),
      d [1, 2, 3] = none) ∧
    handleCompressedFile [gzipDecompressM, zstdDecompressM] [1, 2, 3] = [1, 2, 3] :=
  ⟨by decide,
    decode_c7_garbage_unchanged.1 [gzipDecompressM, zstdDecompressM] [1, 2, 3] (by decide)⟩
